import Mathlib

/-!
Shallow embedding of `package_console_terminal.py`, the code-concatenation
utility of this repository, together with proofs checking the specification's
claims about it.

The embedding models:
* the directory tree seen by `os.walk` as an inductive `Entry` (regular files
  carry their raw byte content);
* `_iter_files` (source lines 49-62) as `iterFiles`/`iterDirs`;
* `_read_file` (lines 65-69) as `readFileText`, including CPython's strict
  UTF-8 decoder, the latin-1 fallback, and the universal-newline translation
  performed by `Path.read_text` (text mode with `newline=None`);
* `collect_code` (lines 86-92) as `collect_code`, with `sorted` on
  `pathlib.Path` values modelled as `List.mergeSort` under comparison of the
  tuple of path components (CPython's `PurePath.__lt__` compares `_cparts`,
  the casefolded parts tuple; on POSIX the parts themselves);
* `_copy_to_clipboard` (lines 72-83) and `main` (lines 95-138) as
  `copyToClipboard` and `runMain`, with the availability of `pbcopy`, of
  `pyperclip`, and the success of the output-file write as an explicit
  environment record.
-/

namespace PCT

/-- A file-system entry as enumerated by `os.walk`: a regular file with its
raw byte content, or a directory with its children in listing order. -/
inductive Entry : Type where
  | file (name : String) (content : List Nat) : Entry
  | dir (name : String) (children : List Entry) : Entry

/-- A file discovered by the traversal: its path relative to the scan root
(as the list of path components) and its raw byte content.  Corresponds to
the `Path` values yielded by `_iter_files` (the byte content is carried along
because the tree is immutable during a run, so the later `_read_file` call on
the path returns exactly these bytes). -/
structure Hit where
  path : List String
  content : List Nat
  deriving DecidableEq, Repr

/-- `name.startswith(".")` (source lines 55 and 58). -/
def isHidden (s : String) : Bool :=
  match s.data with
  | [] => false
  | c :: _ => c = '.'

/-- ASCII lower-casing of one character; models Python's `str.lower` on the
ASCII range, which is the only range relevant to extension tokens. -/
def lowerChar (c : Char) : Char :=
  if 'A' ≤ c ∧ c ≤ 'Z' then Char.ofNat (c.toNat + 32) else c

/-- `s.lower()` restricted to ASCII case mapping. -/
def lowerStr (s : String) : String :=
  String.mk (s.data.map lowerChar)

/-- Index of the last `'.'` in a character list (Python `str.rfind('.')`). -/
def lastDotIdx : List Char → Option Nat
  | [] => none
  | c :: cs =>
    match lastDotIdx cs with
    | some i => some (i + 1)
    | none => if c = '.' then some 0 else none

/-- `pathlib.PurePath.suffix` of a file name: the substring from the last dot
on, provided that dot is neither the first nor the last character; otherwise
the empty string (so `".bashrc"` and `"a."` have suffix `""`). -/
def suffix (name : String) : String :=
  let cs := name.data
  match lastDotIdx cs with
  | none => ""
  | some i => if 0 < i ∧ i < cs.length - 1 then String.mk (cs.drop i) else ""

/-- The directory filter of source lines 51-56: a directory survives the
in-place pruning `dirs[:] = [d for d in dirs if d not in exclude_dirs and not
d.startswith(".")]`. -/
def keepDir (excl : List String) (d : String) : Bool :=
  !(excl.contains d) && !(isHidden d)

/-- The file filter of source lines 57-61: the file is skipped when its name
starts with `"."`, and otherwise selected when `path.suffix.lower()` is a
member of the include set.  Note that only the file's suffix is lower-cased;
the include-set entries are used verbatim. -/
def keepFile (incl : List String) (f : String) : Bool :=
  !(isHidden f) && incl.contains (lowerStr (suffix f))

/-- Extends a hit found inside subdirectory `d` to a hit relative to the
parent directory. -/
def prefixHit (d : String) (h : Hit) : Hit :=
  ⟨d :: h.path, h.content⟩

/-- The hits contributed by the regular files directly inside a directory
(the `for filename in files` loop of lines 57-62). -/
def ownFiles (incl : List String) (children : List Entry) : List Hit :=
  children.filterMap fun c =>
    match c with
    | .file n b => if keepFile incl n then some ⟨[n], b⟩ else none
    | .dir _ _ => none

mutual

/-- `_iter_files(root, include_exts, exclude_dirs)` (source lines 49-62):
`os.walk` yields the files of the current directory first and then descends,
in listing order, into exactly the subdirectories that survive the pruning.
`os.walk` on a path that is not a directory yields nothing (its internal
`scandir` error is swallowed because `onerror` is `None`), which is why the
`Entry.file` case produces no hits. -/
def iterFiles (incl excl : List String) : Entry → List Hit
  | .file _ _ => []
  | .dir _ children => ownFiles incl children ++ iterDirs incl excl children

/-- The recursive descent of `os.walk` into the pruned subdirectory list. -/
def iterDirs (incl excl : List String) : List Entry → List Hit
  | [] => []
  | .file _ _ :: rest => iterDirs incl excl rest
  | .dir d dcs :: rest =>
    (if keepDir excl d then (iterFiles incl excl (.dir d dcs)).map (prefixHit d) else [])
      ++ iterDirs incl excl rest

end

/-- UTF-8 continuation byte (`0x80 ≤ b ≤ 0xBF`). -/
def isCont (b : Nat) : Bool := 0x80 ≤ b && b ≤ 0xBF

/-- Constraint on the second byte of a three-byte UTF-8 sequence (excludes
overlong encodings for `0xE0` and surrogates for `0xED`). -/
def utf8Valid3 (b b2 : Nat) : Bool :=
  if b = 0xE0 then 0xA0 ≤ b2 && b2 ≤ 0xBF
  else if b = 0xED then 0x80 ≤ b2 && b2 ≤ 0x9F
  else isCont b2

/-- Constraint on the second byte of a four-byte UTF-8 sequence (excludes
overlong encodings for `0xF0` and code points above `U+10FFFF` for `0xF4`). -/
def utf8Valid4 (b b2 : Nat) : Bool :=
  if b = 0xF0 then 0x90 ≤ b2 && b2 ≤ 0xBF
  else if b = 0xF4 then 0x80 ≤ b2 && b2 ≤ 0x8F
  else isCont b2

/-- CPython's strict UTF-8 decoder (the behaviour of
`bytes.decode("utf-8")` with default `errors="strict"`): `none` exactly when
the byte sequence is invalid UTF-8, in which case `read_text(encoding="utf-8")`
raises `UnicodeDecodeError`. -/
def utf8Decode : List Nat → Option (List Char)
  | [] => some []
  | b :: rest =>
    if b ≤ 0x7F then
      (utf8Decode rest).map (fun cs => Char.ofNat b :: cs)
    else if 0xC2 ≤ b && b ≤ 0xDF then
      match rest with
      | b2 :: rest2 =>
        if isCont b2 then
          (utf8Decode rest2).map (fun cs => Char.ofNat ((b - 0xC0) * 0x40 + (b2 - 0x80)) :: cs)
        else none
      | [] => none
    else if 0xE0 ≤ b && b ≤ 0xEF then
      match rest with
      | b2 :: b3 :: rest3 =>
        if utf8Valid3 b b2 && isCont b3 then
          (utf8Decode rest3).map
            (fun cs => Char.ofNat ((b - 0xE0) * 0x1000 + (b2 - 0x80) * 0x40 + (b3 - 0x80)) :: cs)
        else none
      | _ => none
    else if 0xF0 ≤ b && b ≤ 0xF4 then
      match rest with
      | b2 :: b3 :: b4 :: rest4 =>
        if utf8Valid4 b b2 && isCont b3 && isCont b4 then
          (utf8Decode rest4).map
            (fun cs =>
              Char.ofNat
                ((b - 0xF0) * 0x40000 + (b2 - 0x80) * 0x1000 + (b3 - 0x80) * 0x40 + (b4 - 0x80)) :: cs)
        else none
      | _ => none
    else none

/-- Latin-1 decoding: every byte `b` decodes to code point `b`, so decoding
never fails and `errors="replace"` never has to replace anything. -/
def latin1Decode (bs : List Nat) : List Char :=
  bs.map Char.ofNat

/-- Universal-newline translation performed by text-mode reads
(`open(mode='r')` with `newline=None`): `"\r\n"` and a lone `"\r"` both
become `"\n"`. -/
def normNewlines : List Char → List Char
  | [] => []
  | '\r' :: '\n' :: rest => '\n' :: normNewlines rest
  | '\r' :: rest => '\n' :: normNewlines rest
  | c :: rest => c :: normNewlines rest

/-- `_read_file(path)` (source lines 65-69): try strict UTF-8, fall back to
latin-1 with `errors="replace"` on `UnicodeDecodeError`; either way the
text-mode read applies universal-newline translation. -/
def readFileText (bs : List Nat) : String :=
  match utf8Decode bs with
  | some cs => String.mk (normNewlines cs)
  | none => String.mk (normNewlines (latin1Decode bs))

/-- Lexicographic strict order on character lists by code point: Python's
`str.__lt__`. -/
def charsLt : List Char → List Char → Bool
  | [], [] => false
  | [], _ :: _ => true
  | _ :: _, [] => false
  | a :: as, b :: bs => if a < b then true else if b < a then false else charsLt as bs

/-- Python string comparison `a < b`. -/
def strLt (a b : String) : Bool := charsLt a.data b.data

/-- Python tuple comparison `a <= b` on tuples of strings.  `sorted` on
`pathlib.Path` values orders by `PurePath.__lt__`, which compares the tuples
of path components (`self._cparts < other._cparts` in CPython 3.11; the
parts themselves on case-sensitive file systems). -/
def partsLe : List String → List String → Bool
  | [], _ => true
  | _ :: _, [] => false
  | a :: as, b :: bs => if strLt a b then true else if strLt b a then false else partsLe as bs

/-- The ordering used by `sorted(_iter_files(...))` on line 88: paths
compared as component tuples. -/
def hitLe (x y : Hit) : Bool := partsLe x.path y.path

/-- `str(path.relative_to(root))` on POSIX: components joined by `"/"`. -/
def pathString : List String → String
  | [] => ""
  | [s] => s
  | s :: rest => s ++ "/" ++ pathString rest

/-- `"".join(combined)` (line 92). -/
def joinAll : List String → String
  | [] => ""
  | s :: rest => s ++ joinAll rest

/-- The two list elements appended per file by lines 90-91:
`f"\n\n# File: {rel_path}\n"` and `_read_file(path)`. -/
def renderUnit (h : Hit) : List String :=
  ["\n\n# File: " ++ pathString h.path ++ "\n", readFileText h.content]

/-- The scan result for a root path: `os.walk` on a missing root or on a
non-directory yields nothing (the `scandir` error is swallowed), so only an
existing directory produces hits. -/
def scan (incl excl : List String) : Option Entry → List Hit
  | none => []
  | some t => iterFiles incl excl t

/-- `sorted(_iter_files(root, include_exts, exclude_dirs))` (line 88). -/
def collectHits (incl excl : List String) (fs : Option Entry) : List Hit :=
  (scan incl excl fs).mergeSort hitLe

/-- `collect_code` (lines 86-92) generalized over the possibly missing root:
the header element followed by the marker/content pairs of the sorted hits,
all joined. -/
def collectFrom (incl excl : List String) (fs : Option Entry) : String :=
  joinAll ("# Combined Code Export\n" :: (collectHits incl excl fs).flatMap renderUnit)

/-- `collect_code(root, include_exts, exclude_dirs)` for an existing root
directory. -/
def collect_code (incl excl : List String) (t : Entry) : String :=
  collectFrom incl excl (some t)

/-- Modelled from the spec (§6, persisted artifact format): "plain text file
beginning with a fixed header line, followed by repeating units of (blank
line, a file-marker line embedding the file's relative path, then the
verbatim file content)".  A blank line is one `"\n"`; the verbatim content is
the decoded text with no line-ending normalization.  This definition exists
to be compared with `collect_code`. -/
def specCombinedDocument (incl excl : List String) (t : Entry) : String :=
  joinAll ("# Combined Code Export\n" ::
    ((collectHits incl excl (some t)).map fun h =>
      "\n" ++ "# File: " ++ pathString h.path ++ "\n" ++
        String.mk (match utf8Decode h.content with
          | some cs => cs
          | none => latin1Decode h.content)))

/-- Availability of the effects used by `main`: whether the `pbcopy` child
process succeeds, whether the `pyperclip` fallback succeeds, and whether the
output-file write succeeds. -/
structure Env where
  pbcopyOk : Bool
  pyperclipOk : Bool
  writeOk : Bool

/-- Observable outcome of one `main` invocation: the content of the output
file after the run (`none` when nothing was written), whether any clipboard
mechanism was invoked, the process exit code, and the lines printed on
success. -/
structure RunResult where
  written : Option String
  clipboardAttempted : Bool
  exitCode : Nat
  stdout : List String
  deriving DecidableEq, Repr

/-- `_copy_to_clipboard` (lines 72-83): try `pbcopy`, on any failure try
`pyperclip`, and if that also fails raise `RuntimeError`. -/
def copyToClipboard (env : Env) : Except String Unit :=
  if env.pbcopyOk then .ok ()
  else if env.pyperclipOk then .ok ()
  else .error "Failed to copy to clipboard"

/-- Line 122: each nonempty `--include` token gains a leading dot when it
lacks one; its letter case is kept as given. -/
def normalizeExts (toks : List String) : List String :=
  (toks.filter fun t => t ≠ "").map fun t => if isHidden t then t else "." ++ t

/-- Line 123: the nonempty `--exclude` tokens, kept verbatim. -/
def normalizeExcl (toks : List String) : List String :=
  toks.filter fun t => t ≠ ""

/-- UTF-8 encoded size in bytes of one code point (`len(ch.encode("utf-8"))`). -/
def charUtf8Size (c : Char) : Nat :=
  if c.toNat ≤ 0x7F then 1
  else if c.toNat ≤ 0x7FF then 2
  else if c.toNat ≤ 0xFFFF then 3
  else 4

/-- `len(combined.encode("utf-8"))` (line 136). -/
def utf8Len (s : String) : Nat :=
  (s.data.map charUtf8Size).sum

/-- Round `num / den` to the nearest integer, ties to even: the rounding
CPython's `format(x, '.1f')` applies to the (here exactly represented)
value `x`. -/
def roundHalfEvenDiv (num den : Nat) : Nat :=
  let q := num / den
  let r := num % den
  if 2 * r < den then q
  else if den < 2 * r then q + 1
  else if q % 2 = 0 then q else q + 1

/-- `f"{nbytes / 1024:.1f}"`: the byte count divided by 1024, rendered with
one decimal place.  Exact for every document small enough for `nbytes / 1024`
to be an exactly represented double (`nbytes < 2^53`). -/
def formatKB (nbytes : Nat) : String :=
  let t := roundHalfEvenDiv (nbytes * 10) 1024
  toString (t / 10) ++ "." ++ toString (t % 10)

/-- Line 138: `f"Copied to clipboard ({size_kb:.1f} KB)."`. -/
def sizeLine (doc : String) : String :=
  "Copied to clipboard (" ++ formatKB (utf8Len doc) ++ " KB)."

/-- Whether the root path exists and is a directory. -/
def rootIsDir : Option Entry → Bool
  | some (.dir _ _) => true
  | _ => false

/-- `main` (lines 95-138) after argument parsing: build the combined
document, write it to the output path (line 132; an exception here aborts the
run before any clipboard call), then `_copy_to_clipboard` (line 134; an
exception here aborts the run after the file is on disk), then print the two
report lines.  `outPath` stands for the explicit `--output` path or the
timestamped default. -/
def runMain (env : Env) (fs : Option Entry) (inclToks exclToks : List String)
    (outPath : String) : RunResult :=
  let incl := normalizeExts inclToks
  let excl := normalizeExcl exclToks
  let combined := collectFrom incl excl fs
  if env.writeOk then
    match copyToClipboard env with
    | .ok _ => ⟨some combined, true, 0, ["Saved: " ++ outPath, sizeLine combined]⟩
    | .error _ => ⟨some combined, true, 1, []⟩
  else
    ⟨none, false, 1, []⟩

/-- `DEFAULT_EXTS` (lines 10-25), in the sorted order `main` uses for the
`--include` default. -/
def DEFAULT_EXTS : List String :=
  [".css", ".html", ".js", ".json", ".jsx", ".md", ".py", ".scss", ".toml",
   ".ts", ".tsx", ".txt", ".yaml", ".yml"]

/-- `DEFAULT_EXCLUDE_DIRS` (lines 27-44), in the sorted order `main` uses for
the `--exclude` default. -/
def DEFAULT_EXCLUDE_DIRS : List String :=
  [".git", ".hg", ".idea", ".mypy_cache", ".next", ".pytest_cache", ".svn",
   ".turbo", ".venv", ".vscode", "__pycache__", "build", "coverage", "dist",
   "node_modules", "venv"]


/-! ### Order lemmas for the path comparison -/

theorem charsLt_eq_of_not_lt : ∀ {a b : List Char},
    charsLt a b = false → charsLt b a = false → a = b := by
  intro a
  induction a with
  | nil =>
    intro b h1 h2
    cases b with
    | nil => rfl
    | cons y ys => simp [charsLt] at h1
  | cons x xs ih =>
    intro b h1 h2
    cases b with
    | nil => simp [charsLt] at h2
    | cons y ys =>
      simp only [charsLt] at h1 h2
      rcases lt_trichotomy x y with hxy | hxy | hxy
      · simp [hxy] at h1
      · subst hxy
        simp [lt_irrefl] at h1 h2
        rw [ih h1 h2]
      · simp [hxy, lt_asymm hxy] at h2

theorem charsLt_trans : ∀ {a b c : List Char},
    charsLt a b = true → charsLt b c = true → charsLt a c = true := by
  intro a
  induction a with
  | nil =>
    intro b c h1 h2
    cases b with
    | nil => simp [charsLt] at h1
    | cons y ys =>
      cases c with
      | nil => simp [charsLt] at h2
      | cons z zs => simp [charsLt]
  | cons x xs ih =>
    intro b c h1 h2
    cases b with
    | nil => simp [charsLt] at h1
    | cons y ys =>
      cases c with
      | nil => simp [charsLt] at h2
      | cons z zs =>
        simp only [charsLt] at h1 h2 ⊢
        rcases lt_trichotomy x y with hxy | hxy | hxy
        · rcases lt_trichotomy y z with hyz | hyz | hyz
          · simp [lt_trans hxy hyz]
          · subst hyz; simp [hxy]
          · simp [hyz, lt_asymm hyz] at h2
        · subst hxy
          rcases lt_trichotomy x z with hyz | hyz | hyz
          · simp [hyz]
          · subst hyz
            simp only [lt_irrefl, if_false] at h1 h2 ⊢
            exact ih h1 h2
          · simp [hyz, lt_asymm hyz] at h2
        · simp [hxy, lt_asymm hxy] at h1

theorem charsLt_irrefl (a : List Char) : charsLt a a = false := by
  induction a with
  | nil => rfl
  | cons x xs ih => simp [charsLt, lt_irrefl, ih]

theorem strLt_eq_of_not_lt {a b : String} (h1 : strLt a b = false) (h2 : strLt b a = false) :
    a = b := by
  cases a; cases b
  exact congrArg String.mk (charsLt_eq_of_not_lt h1 h2)

theorem strLt_trans {a b c : String} (h1 : strLt a b = true) (h2 : strLt b c = true) :
    strLt a c = true :=
  charsLt_trans h1 h2

theorem strLt_irrefl (a : String) : strLt a a = false :=
  charsLt_irrefl a.data

theorem strLt_asymm {a b : String} (h : strLt a b = true) : strLt b a = false := by
  cases hv : strLt b a
  · rfl
  · have hr := strLt_trans h hv
    rw [strLt_irrefl] at hr
    exact absurd hr Bool.false_ne_true

theorem partsLe_cons_iff {a b : String} {as bs : List String} :
    partsLe (a :: as) (b :: bs) = true ↔
      strLt a b = true ∨ (strLt a b = false ∧ strLt b a = false ∧ partsLe as bs = true) := by
  simp only [partsLe]
  cases hab : strLt a b <;> cases hba : strLt b a <;> simp

theorem partsLe_total : ∀ (p q : List String), (partsLe p q || partsLe q p) = true := by
  intro p
  induction p with
  | nil => intro q; simp [partsLe]
  | cons a as ih =>
    intro q
    cases q with
    | nil => simp [partsLe]
    | cons b bs =>
      simp only [partsLe]
      cases hab : strLt a b
      · cases hba : strLt b a
        · simpa using ih bs
        · simp
      · simp

theorem partsLe_trans : ∀ (p q r : List String),
    partsLe p q = true → partsLe q r = true → partsLe p r = true := by
  intro p
  induction p with
  | nil => intro q r _ _; rfl
  | cons a as ih =>
    intro q r h1 h2
    cases q with
    | nil => simp [partsLe] at h1
    | cons b bs =>
      cases r with
      | nil => simp [partsLe] at h2
      | cons c cs =>
        rw [partsLe_cons_iff] at h1 h2 ⊢
        rcases h1 with hab | ⟨hab, hba, htail1⟩
        · rcases h2 with hbc | ⟨hbc, hcb, htail2⟩
          · exact Or.inl (strLt_trans hab hbc)
          · rw [strLt_eq_of_not_lt hbc hcb] at hab
            exact Or.inl hab
        · rcases h2 with hbc | ⟨hbc, hcb, htail2⟩
          · rw [strLt_eq_of_not_lt hab hba]
            exact Or.inl hbc
          · have heq : b = c := strLt_eq_of_not_lt hbc hcb
            subst heq
            exact Or.inr ⟨hab, hba, ih bs cs htail1 htail2⟩

theorem partsLe_antisymm : ∀ (p q : List String),
    partsLe p q = true → partsLe q p = true → p = q := by
  intro p
  induction p with
  | nil =>
    intro q h1 h2
    cases q with
    | nil => rfl
    | cons b bs => simp [partsLe] at h2
  | cons a as ih =>
    intro q h1 h2
    cases q with
    | nil => simp [partsLe] at h1
    | cons b bs =>
      rw [partsLe_cons_iff] at h1 h2
      rcases h1 with hab | ⟨hab, hba, htail1⟩
      · rcases h2 with hba | ⟨hba, hab2, _⟩
        · rw [strLt_asymm hab] at hba
          exact absurd hba (by simp)
        · rw [hab2] at hab
          exact absurd hab (by simp)
      · rcases h2 with hba2 | ⟨_, _, htail2⟩
        · rw [hba2] at hba
          exact absurd hba (by simp)
        · rw [strLt_eq_of_not_lt hab hba, ih bs htail1 htail2]

/-! ### Sorting lemmas -/

theorem hitLe_total (x y : Hit) : (hitLe x y || hitLe y x) = true :=
  partsLe_total x.path y.path

theorem hitLe_trans (x y z : Hit) (h1 : hitLe x y = true) (h2 : hitLe y z = true) :
    hitLe x z = true :=
  partsLe_trans _ _ _ h1 h2

theorem hitLe_antisymm_path {x y : Hit} (h1 : hitLe x y = true) (h2 : hitLe y x = true) :
    x.path = y.path :=
  partsLe_antisymm _ _ h1 h2

/-- Two sorted hit lists that are permutations of each other and whose paths
are pairwise distinct are equal: the sorted order of a set of files with
distinct paths is unique. -/
theorem sorted_perm_nodup_eq : ∀ (xs ys : List Hit),
    List.Perm xs ys → xs.Pairwise (fun a b => hitLe a b = true) →
    ys.Pairwise (fun a b => hitLe a b = true) →
    (xs.map Hit.path).Nodup → xs = ys := by
  intro xs
  induction xs with
  | nil =>
    intro ys hp _ _ _
    exact (hp.symm.eq_nil).symm ▸ rfl
  | cons x xs ih =>
    intro ys hp hs1 hs2 hnd
    cases ys with
    | nil => exact absurd hp.eq_nil (by simp)
    | cons y ys =>
      by_cases hxy : x = y
      · subst hxy
        have hp' := hp.cons_inv
        have hs1' := (List.pairwise_cons.mp hs1).2
        have hs2' := (List.pairwise_cons.mp hs2).2
        have hnd' : (xs.map Hit.path).Nodup := by
          simp only [List.map_cons, List.nodup_cons] at hnd
          exact hnd.2
        rw [ih ys hp' hs1' hs2' hnd']
      · exfalso
        have hx_mem : x ∈ y :: ys := hp.mem_iff.mp (List.mem_cons_self x xs)
        have hy_mem : y ∈ x :: xs := hp.symm.mem_iff.mp (List.mem_cons_self y ys)
        have hx_in : x ∈ ys := by
          cases List.mem_cons.mp hx_mem with
          | inl h => exact absurd h hxy
          | inr h => exact h
        have hy_in : y ∈ xs := by
          cases List.mem_cons.mp hy_mem with
          | inl h => exact absurd h.symm hxy
          | inr h => exact h
        have h1 : hitLe x y = true := (List.pairwise_cons.mp hs1).1 y hy_in
        have h2 : hitLe y x = true := (List.pairwise_cons.mp hs2).1 x hx_in
        have hpath : x.path = y.path := hitLe_antisymm_path h1 h2
        simp only [List.map_cons, List.nodup_cons] at hnd
        exact hnd.1 (hpath ▸ List.mem_map_of_mem Hit.path hy_in)

/-- Sorting with `hitLe` is invariant under permutation of the input as long
as the paths are pairwise distinct (which holds for the hits of a real
directory tree). -/
theorem mergeSort_perm_invariant {l1 l2 : List Hit} (hp : List.Perm l1 l2)
    (hnd : (l1.map Hit.path).Nodup) :
    l1.mergeSort hitLe = l2.mergeSort hitLe := by
  apply sorted_perm_nodup_eq
  · exact (List.mergeSort_perm l1 hitLe).trans (hp.trans (List.mergeSort_perm l2 hitLe).symm)
  · exact List.sorted_mergeSort (fun a b c => hitLe_trans a b c) (fun a b => hitLe_total a b) l1
  · exact List.sorted_mergeSort (fun a b c => hitLe_trans a b c) (fun a b => hitLe_total a b) l2
  · exact (((List.mergeSort_perm l1 hitLe).map Hit.path).nodup_iff).mpr hnd


/-! ### Characterization of the traversal -/

/-- Tree `t` contains a regular file at relative component path `p` with
content `b`. -/
inductive FileAt : Entry → List String → List Nat → Prop where
  | here {n : String} {cs : List Entry} {name : String} {bytes : List Nat} :
      Entry.file name bytes ∈ cs → FileAt (.dir n cs) [name] bytes
  | there {n : String} {cs : List Entry} {d : String} {dcs : List Entry}
      {rest : List String} {bytes : List Nat} :
      Entry.dir d dcs ∈ cs → FileAt (.dir d dcs) rest bytes →
      FileAt (.dir n cs) (d :: rest) bytes

/-- The path-level filter of `_iter_files`: every directory component of the
path survives the directory pruning and the final file name passes the file
filter. -/
def SelPath (incl excl : List String) : List String → Prop
  | [] => False
  | [n] => keepFile incl n = true
  | d :: rest => keepDir excl d = true ∧ SelPath incl excl rest

theorem FileAt_ne_nil {t : Entry} {p : List String} {b : List Nat}
    (h : FileAt t p b) : p ≠ [] := by
  cases h <;> simp

theorem SelPath_single {incl excl : List String} {n : String} :
    SelPath incl excl [n] ↔ keepFile incl n = true :=
  Iff.rfl

theorem SelPath_cons {incl excl : List String} {d : String} {rest : List String}
    (hne : rest ≠ []) :
    SelPath incl excl (d :: rest) ↔ (keepDir excl d = true ∧ SelPath incl excl rest) := by
  cases rest with
  | nil => exact absurd rfl hne
  | cons x r => exact Iff.rfl

theorem iter_sound_aux (incl excl : List String) : ∀ N : Nat,
    (∀ t : Entry, sizeOf t ≤ N → ∀ h : Hit, h ∈ iterFiles incl excl t →
      FileAt t h.path h.content ∧ SelPath incl excl h.path)
    ∧ (∀ cs : List Entry, sizeOf cs ≤ N → ∀ h : Hit, h ∈ iterDirs incl excl cs →
      ∃ d dcs h', Entry.dir d dcs ∈ cs ∧ keepDir excl d = true ∧ h = prefixHit d h' ∧
        FileAt (Entry.dir d dcs) h'.path h'.content ∧ SelPath incl excl h'.path) := by
  intro N
  induction N using Nat.strong_induction_on with
  | _ N ih =>
    constructor
    · intro t hsize h hmem
      cases t with
      | file n b => simp [iterFiles] at hmem
      | dir n cs =>
        simp only [iterFiles] at hmem
        rcases List.mem_append.mp hmem with hown | hdirs
        · rcases List.mem_filterMap.mp hown with ⟨c, hc, hsome⟩
          cases c with
          | file fn fb =>
            by_cases hk : keepFile incl fn = true
            · simp only [hk, if_true] at hsome
              cases hsome
              exact ⟨FileAt.here hc, hk⟩
            · simp only [hk] at hsome
              simp at hsome
          | dir _ _ => simp at hsome
        · have hlt : sizeOf cs < N := by
            have hd : sizeOf cs < sizeOf (Entry.dir n cs) := by
              simp only [Entry.dir.sizeOf_spec]
              omega
            omega
          rcases (ih (sizeOf cs) hlt).2 cs (le_refl _) h hdirs with
            ⟨d, dcs, h', hcmem, hkd, heq, hfile, hsel⟩
          subst heq
          refine ⟨FileAt.there hcmem hfile, ?_⟩
          exact (SelPath_cons (FileAt_ne_nil hfile)).mpr ⟨hkd, hsel⟩
    · intro cs hsize h hmem
      cases cs with
      | nil => simp [iterDirs] at hmem
      | cons c rest =>
        have hsrest : sizeOf rest < N := by
          have hcr : sizeOf rest < sizeOf (c :: rest) := by
            simp only [List.cons.sizeOf_spec]
            have hc0 : 0 < sizeOf c := by cases c <;> simp
            omega
          omega
        cases c with
        | file fn fb =>
          simp only [iterDirs] at hmem
          rcases (ih (sizeOf rest) hsrest).2 rest (le_refl _) h hmem with
            ⟨d, dcs, h', hcmem, hkd, heq, hfile, hsel⟩
          exact ⟨d, dcs, h', List.mem_cons_of_mem _ hcmem, hkd, heq, hfile, hsel⟩
        | dir d dcs =>
          simp only [iterDirs] at hmem
          rcases List.mem_append.mp hmem with hleft | hright
          · by_cases hk : keepDir excl d = true
            · rw [if_pos hk] at hleft
              rcases List.mem_map.mp hleft with ⟨h', hmem', heq⟩
              have hdlt : sizeOf (Entry.dir d dcs) < N := by
                have hlt2 : sizeOf (Entry.dir d dcs) < sizeOf (Entry.dir d dcs :: rest) := by
                  simp only [List.cons.sizeOf_spec]
                  omega
                omega
              rcases (ih _ hdlt).1 (Entry.dir d dcs) (le_refl _) h' hmem' with ⟨hfile, hsel⟩
              exact ⟨d, dcs, h', List.mem_cons_self _ _, hk, heq.symm, hfile, hsel⟩
            · rw [if_neg hk] at hleft
              simp at hleft
          · rcases (ih (sizeOf rest) hsrest).2 rest (le_refl _) h hright with
              ⟨d2, dcs2, h', hcmem, hkd, heq, hfile, hsel⟩
            exact ⟨d2, dcs2, h', List.mem_cons_of_mem _ hcmem, hkd, heq, hfile, hsel⟩

/-- Soundness of the traversal: every hit comes from a file actually in the
tree, reached only through directories that survive the pruning, with a file
name passing the file filter. -/
theorem iterFiles_sound {incl excl : List String} {t : Entry} {h : Hit}
    (hmem : h ∈ iterFiles incl excl t) :
    FileAt t h.path h.content ∧ SelPath incl excl h.path :=
  (iter_sound_aux incl excl (sizeOf t)).1 t (le_refl _) h hmem

theorem mem_iterDirs_of {incl excl : List String} {d : String} {dcs : List Entry} {h' : Hit} :
    ∀ {cs : List Entry}, Entry.dir d dcs ∈ cs → keepDir excl d = true →
      h' ∈ iterFiles incl excl (.dir d dcs) → prefixHit d h' ∈ iterDirs incl excl cs := by
  intro cs
  induction cs with
  | nil => intro hc _ _; simp at hc
  | cons c rest ih =>
    intro hc hk hmem
    rcases List.mem_cons.mp hc with hceq | hcrest
    · subst hceq
      simp only [iterDirs]
      apply List.mem_append_left
      rw [if_pos hk]
      exact List.mem_map_of_mem _ hmem
    · cases c with
      | file _ _ =>
        simp only [iterDirs]
        exact ih hcrest hk hmem
      | dir _ _ =>
        simp only [iterDirs]
        exact List.mem_append_right _ (ih hcrest hk hmem)

/-- Completeness of the traversal: every file of the tree whose path passes
the filters is discovered. -/
theorem iterFiles_complete {incl excl : List String} {t : Entry} {p : List String}
    {b : List Nat} (hfile : FileAt t p b) (hsel : SelPath incl excl p) :
    (Hit.mk p b) ∈ iterFiles incl excl t := by
  induction hfile with
  | here hc =>
    simp only [iterFiles]
    apply List.mem_append_left
    apply List.mem_filterMap.mpr
    refine ⟨_, hc, ?_⟩
    rw [SelPath_single] at hsel
    simp [hsel]
  | there hc hsub ih =>
    rcases (SelPath_cons (FileAt_ne_nil hsub)).mp hsel with ⟨hkd, hsel2⟩
    simp only [iterFiles]
    apply List.mem_append_right
    exact mem_iterDirs_of hc hkd (ih hsel2)

/-- Full characterization of `_iter_files`: a `(path, content)` pair is
yielded iff the tree has that file at that path and every component of the
path passes the corresponding filter. -/
theorem mem_iterFiles_iff (incl excl : List String) (t : Entry) (p : List String)
    (b : List Nat) :
    (Hit.mk p b) ∈ iterFiles incl excl t ↔ (FileAt t p b ∧ SelPath incl excl p) :=
  ⟨fun h => iterFiles_sound h, fun h => iterFiles_complete h.1 h.2⟩

/-! ### Join lemmas for the combined document -/

theorem joinAll_append : ∀ (l1 l2 : List String), joinAll (l1 ++ l2) = joinAll l1 ++ joinAll l2 := by
  intro l1 l2
  induction l1 with
  | nil => simp [joinAll]
  | cons s rest ih =>
    show s ++ joinAll (rest ++ l2) = s ++ joinAll rest ++ joinAll l2
    rw [ih, String.append_assoc]

/-- Any element of the joined list appears verbatim inside the joined string. -/
theorem joinAll_split {x : String} {l : List String} (hmem : x ∈ l) :
    ∃ pre post : String, joinAll l = pre ++ x ++ post := by
  rcases List.append_of_mem hmem with ⟨s, t, rfl⟩
  refine ⟨joinAll s, joinAll t, ?_⟩
  rw [joinAll_append]
  simp only [joinAll, String.append_assoc]

/-- The combined document is the header followed, for each sorted hit, by
the unit of two newlines, the marker line with the relative path, and the
decoded content. -/
theorem collectFrom_units (incl excl : List String) (fs : Option Entry) :
    collectFrom incl excl fs =
      "# Combined Code Export\n" ++
        joinAll ((collectHits incl excl fs).map fun h =>
          "\n\n# File: " ++ pathString h.path ++ "\n" ++ readFileText h.content) := by
  unfold collectFrom
  simp only [joinAll]
  congr 1
  induction collectHits incl excl fs with
  | nil => rfl
  | cons h rest ih =>
    rw [List.flatMap_cons, joinAll_append, ih]
    simp only [renderUnit, joinAll, List.map_cons, String.append_empty, String.append_assoc]


/-! ### Claim theorems: sink pipeline (C1, C6, C9, C10) -/

/-- C10: the clipboard copy is attempted only after the output-file write has
completed successfully.  When the write fails, the failure propagates: no
clipboard mechanism is invoked in that run, nothing is written, and the exit
code is non-zero. -/
theorem c10_write_failure_no_clipboard (pb py : Bool) (fs : Option Entry)
    (inclToks exclToks : List String) (outPath : String) :
    (runMain ⟨pb, py, false⟩ fs inclToks exclToks outPath).clipboardAttempted = false ∧
    (runMain ⟨pb, py, false⟩ fs inclToks exclToks outPath).written = none ∧
    (runMain ⟨pb, py, false⟩ fs inclToks exclToks outPath).exitCode = 1 := by
  refine ⟨?_, ?_, ?_⟩ <;> simp [runMain]

/-- C6: when both `pbcopy` and the `pyperclip` fallback fail, the run signals
a clipboard error (non-zero exit), but the output file has already been
written with the full combined document and is not rolled back. -/
theorem c6_clipboard_failure_file_kept (fs : Option Entry)
    (inclToks exclToks : List String) (outPath : String) :
    (runMain ⟨false, false, true⟩ fs inclToks exclToks outPath).written =
      some (collectFrom (normalizeExts inclToks) (normalizeExcl exclToks) fs) ∧
    (runMain ⟨false, false, true⟩ fs inclToks exclToks outPath).clipboardAttempted = true ∧
    (runMain ⟨false, false, true⟩ fs inclToks exclToks outPath).exitCode = 1 := by
  refine ⟨?_, ?_, ?_⟩ <;> simp [runMain, copyToClipboard]

/-- C1 is false on the code: with a root that does not exist, `os.walk`
silently yields nothing, so the program writes a header-only document,
attempts the clipboard copy, and exits 0 — it does not fail fast with a
configuration error. -/
theorem c1_counterexample :
    (runMain ⟨true, true, true⟩ none [".py"] [] "out.txt").written =
      some "# Combined Code Export\n" ∧
    (runMain ⟨true, true, true⟩ none [".py"] [] "out.txt").clipboardAttempted = true ∧
    (runMain ⟨true, true, true⟩ none [".py"] [] "out.txt").exitCode = 0 := by
  refine ⟨?_, ?_, ?_⟩ <;>
    simp [runMain, copyToClipboard, collectFrom, collectHits, scan, joinAll]

/-- C1 (amended): if the root path does not exist or is not a directory, the
traversal silently yields no files; the program builds the header-only
combined document, still writes the output file and still attempts the
clipboard copy (exiting 0 when those succeed) — no configuration error is
raised and no work is skipped. -/
theorem c1_amended_no_fail_fast (pb py : Bool) (fs : Option Entry)
    (inclToks exclToks : List String) (outPath : String)
    (hroot : rootIsDir fs = false) :
    scan (normalizeExts inclToks) (normalizeExcl exclToks) fs = [] ∧
    (runMain ⟨pb, py, true⟩ fs inclToks exclToks outPath).written =
      some "# Combined Code Export\n" ∧
    (runMain ⟨pb, py, true⟩ fs inclToks exclToks outPath).clipboardAttempted = true ∧
    (runMain ⟨pb, py, true⟩ fs inclToks exclToks outPath).exitCode =
      (if pb || py then 0 else 1) := by
  have hscan : scan (normalizeExts inclToks) (normalizeExcl exclToks) fs = [] := by
    cases fs with
    | none => rfl
    | some t =>
      cases t with
      | file n b => simp [scan, iterFiles]
      | dir n cs => simp [rootIsDir] at hroot
  refine ⟨hscan, ?_, ?_, ?_⟩ <;>
    cases pb <;> cases py <;>
      simp [runMain, copyToClipboard, collectFrom, collectHits, hscan, joinAll]

/-- Witness for the amended C1 at a concrete input: a missing root. -/
theorem c1_amended_witness :
    rootIsDir none = false ∧
    (scan (normalizeExts [".py"]) (normalizeExcl []) none = [] ∧
     (runMain ⟨true, true, true⟩ none [".py"] [] "out.txt").written =
       some "# Combined Code Export\n" ∧
     (runMain ⟨true, true, true⟩ none [".py"] [] "out.txt").clipboardAttempted = true ∧
     (runMain ⟨true, true, true⟩ none [".py"] [] "out.txt").exitCode =
       (if true || true then 0 else 1)) :=
  ⟨rfl, c1_amended_no_fail_fast true true none [".py"] [] "out.txt" rfl⟩

/-- C9: the reported size is the document's UTF-8 byte length divided by
1024, rendered with one decimal place; a document of exactly 2048 bytes is
reported as `2.0 KB`. -/
theorem c9_size_report (doc : String) (hlen : utf8Len doc = 2048) :
    sizeLine doc = "Copied to clipboard (2.0 KB)." := by
  rw [sizeLine, hlen]
  decide

/-- Witness for C9: a concrete 2048-byte document. -/
theorem c9_size_report_witness :
    utf8Len (String.mk (List.replicate 2048 'a')) = 2048 ∧
    sizeLine (String.mk (List.replicate 2048 'a')) = "Copied to clipboard (2.0 KB)." := by
  have hlen : utf8Len (String.mk (List.replicate 2048 'a')) = 2048 := by
    rw [utf8Len, show (String.mk (List.replicate 2048 'a')).data = List.replicate 2048 'a' from rfl,
      List.map_replicate, show charUtf8Size 'a' = 1 from rfl, List.sum_replicate, smul_eq_mul,
      Nat.mul_one]
  exact ⟨hlen, c9_size_report _ hlen⟩


/-! ### Claim theorems: traversal and ordering (C2, C3, C4) -/

/-- The tree `r/{a/b.py, a.x/c.py}`: component-tuple ordering puts `a/b.py`
first, while full-path string ordering puts `a.x/c.py` first (since `'.'`
precedes `'/'`). -/
def c2Tree : Entry :=
  .dir "r" [.dir "a" [.file "b.py" [120]], .dir "a.x" [.file "c.py" [121]]]

/-- C2 is false on the code: `sorted` on `pathlib.Path` values compares the
tuples of path components, not the path strings, and the two orders differ.
On `c2Tree` the combined document lists `a/b.py` before `a.x/c.py`, although
`"a.x/c.py"` precedes `"a/b.py"` in string order — so the files are not in
ascending string order of full path. -/
theorem c2_counterexample :
    ((collectHits [".py"] [] (some c2Tree)).map fun h => pathString h.path) =
      ["a/b.py", "a.x/c.py"] ∧
    strLt "a.x/c.py" "a/b.py" = true := by
  constructor
  · have hhits : iterFiles [".py"] [] c2Tree =
        [⟨["a", "b.py"], [120]⟩, ⟨["a.x", "c.py"], [121]⟩] := by decide
    have hsorted :
        List.Pairwise (fun a b => hitLe a b = true)
          [(⟨["a", "b.py"], [120]⟩ : Hit), ⟨["a.x", "c.py"], [121]⟩] := by decide
    rw [collectHits, scan, hhits, List.mergeSort_of_sorted hsorted]
    decide
  · decide

/-- C2 (amended): the collector orders the discovered files by sorting their
paths as component tuples (CPython `PurePath` ordering), lexicographic in
the components under string comparison; for files of the same directory this
coincides with ascending name order, but it is not in general the ascending
string order of the full path. -/
theorem c2_amended_parts_order (incl excl : List String) (fs : Option Entry) :
    ((collectHits incl excl fs).map Hit.path).Pairwise (fun p q => partsLe p q = true) := by
  have hs := List.sorted_mergeSort (fun a b c => hitLe_trans a b c)
    (fun a b => hitLe_total a b) (scan incl excl fs)
  exact List.pairwise_map.mpr hs

/-- Decomposition of a filter-passing path: kept directory components and a
kept file name. -/
theorem SelPath_decomp {incl excl : List String} : ∀ {p : List String},
    SelPath incl excl p →
    ∃ ds n, p = ds ++ [n] ∧ (∀ d ∈ ds, keepDir excl d = true) ∧ keepFile incl n = true := by
  intro p
  induction p with
  | nil => intro h; exact absurd h (by simp [SelPath])
  | cons a rest ih =>
    intro h
    cases rest with
    | nil =>
      exact ⟨[], a, rfl, by simp, SelPath_single.mp h⟩
    | cons x r =>
      rcases (SelPath_cons (by simp)).mp h with ⟨hkd, hsel⟩
      rcases ih hsel with ⟨ds, n, heq, hds, hn⟩
      refine ⟨a :: ds, n, by simp [heq], ?_, hn⟩
      intro d hd
      rcases List.mem_cons.mp hd with rfl | hd2
      · exact hkd
      · exact hds d hd2

/-- A path passes the filter iff all its directory components survive the
pruning and its file name passes the file filter. -/
theorem SelPath_append_iff {incl excl : List String} : ∀ (ds : List String) (n : String),
    SelPath incl excl (ds ++ [n]) ↔
      ((∀ d ∈ ds, keepDir excl d = true) ∧ keepFile incl n = true) := by
  intro ds n
  induction ds with
  | nil => simp [SelPath_single]
  | cons a ds ih =>
    rw [List.cons_append, SelPath_cons (by simp), ih]
    constructor
    · rintro ⟨hka, hds, hn⟩
      refine ⟨?_, hn⟩
      intro d hd
      rcases List.mem_cons.mp hd with rfl | hd2
      · exact hka
      · exact hds d hd2
    · rintro ⟨hds, hn⟩
      exact ⟨hds a (List.mem_cons_self _ _), fun d hd => hds d (List.mem_cons_of_mem _ hd), hn⟩

/-- C3 is false on the code: matching is not case-insensitive on the
configured token's side.  The file `a.PY` has suffix exactly equal to the
configured (and already dot-normalized) token `.PY`, yet it is not selected,
because the code lower-cases the file's suffix before the exact membership
test and never lower-cases the include-set entries. -/
theorem c3_counterexample :
    normalizeExts [".PY"] = [".PY"] ∧
    suffix "a.PY" = ".PY" ∧
    iterFiles (normalizeExts [".PY"]) [] (.dir "r" [.file "a.PY" [120]]) = [] := by
  refine ⟨by decide, by decide, by decide⟩

/-- C3 (amended): extension matching lower-cases only the file's suffix and
then tests literal membership in the include set: a file (reachable through
kept directories) is selected iff it is not hidden and the lower-cased
suffix is literally an include-set entry.  Matching is case-insensitive in
the file's suffix but case-sensitive in the configured token. -/
theorem c3_amended_lowercased_suffix_membership (incl excl : List String) (t : Entry)
    (ds : List String) (n : String) (b : List Nat)
    (hfile : FileAt t (ds ++ [n]) b)
    (hdirs : ∀ d ∈ ds, keepDir excl d = true) :
    (Hit.mk (ds ++ [n]) b ∈ iterFiles incl excl t) ↔
      (isHidden n = false ∧ incl.contains (lowerStr (suffix n)) = true) := by
  rw [mem_iterFiles_iff]
  constructor
  · rintro ⟨_, hsel⟩
    have hk := ((SelPath_append_iff ds n).mp hsel).2
    rw [keepFile, Bool.and_eq_true, Bool.not_eq_true'] at hk
    exact hk
  · rintro ⟨hh, hc⟩
    refine ⟨hfile, (SelPath_append_iff ds n).mpr ⟨hdirs, ?_⟩⟩
    rw [keepFile, Bool.and_eq_true, Bool.not_eq_true']
    exact ⟨hh, hc⟩

/-- Witness for the amended C3 at a concrete input. -/
theorem c3_amended_witness :
    FileAt (.dir "r" [.file "a.py" [120]]) (([] : List String) ++ ["a.py"]) [120] ∧
    ((Hit.mk (([] : List String) ++ ["a.py"]) [120] ∈
        iterFiles [".py"] ["node_modules"] (.dir "r" [.file "a.py" [120]])) ↔
      (isHidden "a.py" = false ∧ [".py"].contains (lowerStr (suffix "a.py")) = true)) :=
  ⟨FileAt.here (List.mem_cons_self _ _),
   c3_amended_lowercased_suffix_membership [".py"] ["node_modules"] _ [] "a.py" [120]
     (FileAt.here (List.mem_cons_self _ _)) (by simp)⟩

/-- C4: every discovered file's path consists of directory components none
of which is in the exclusion set or begins with `.` (pruning is transitive
to all descendants), and a file name that does not begin with `.`. -/
theorem c4_pruning_transitive (incl excl : List String) (t : Entry) (h : Hit)
    (hmem : h ∈ iterFiles incl excl t) :
    ∃ ds n, h.path = ds ++ [n] ∧
      (∀ d ∈ ds, excl.contains d = false ∧ isHidden d = false) ∧
      isHidden n = false := by
  rcases iterFiles_sound hmem with ⟨_, hsel⟩
  rcases SelPath_decomp hsel with ⟨ds, n, heq, hds, hn⟩
  refine ⟨ds, n, heq, ?_, ?_⟩
  · intro d hd
    have hk := hds d hd
    rw [keepDir, Bool.and_eq_true, Bool.not_eq_true', Bool.not_eq_true'] at hk
    exact hk
  · rw [keepFile, Bool.and_eq_true, Bool.not_eq_true'] at hn
    exact hn.1

/-- The tree for the C4 witness: a kept subdirectory and an excluded one. -/
def c4Tree : Entry :=
  .dir "r" [.dir "sub" [.file "a.py" [120]], .dir "node_modules" [.file "b.py" [1]]]

/-- Witness for C4 at a concrete input: a hit one directory deep. -/
theorem c4_pruning_transitive_witness :
    ((⟨["sub", "a.py"], [120]⟩ : Hit) ∈ iterFiles [".py"] ["node_modules"] c4Tree) ∧
    (∃ ds n, (⟨["sub", "a.py"], [120]⟩ : Hit).path = ds ++ [n] ∧
      (∀ d ∈ ds, ["node_modules"].contains d = false ∧ isHidden d = false) ∧
      isHidden n = false) :=
  ⟨by decide,
   c4_pruning_transitive [".py"] ["node_modules"] c4Tree ⟨["sub", "a.py"], [120]⟩ (by decide)⟩


/-! ### Claim theorems: reading, format, determinism (C5, C7, C8) -/

/-- C5: reading never aborts on character encoding.  For every discovered
file whose bytes are not valid UTF-8, `_read_file` returns the latin-1
decoding (total on all byte sequences) instead of failing, and that decoded
content still appears verbatim inside the combined document. -/
theorem c5_encoding_fallback (incl excl : List String) (t : Entry) (h : Hit)
    (hmem : h ∈ iterFiles incl excl t) (hbad : utf8Decode h.content = none) :
    readFileText h.content = String.mk (normNewlines (latin1Decode h.content)) ∧
    ∃ pre post, collect_code incl excl t = pre ++ readFileText h.content ++ post := by
  constructor
  · rw [readFileText, hbad]
  · have hm2 : h ∈ collectHits incl excl (some t) := by
      rw [collectHits]
      exact List.mem_mergeSort.mpr hmem
    have hseg : readFileText h.content ∈ (collectHits incl excl (some t)).flatMap renderUnit :=
      List.mem_flatMap.mpr ⟨h, hm2, by simp [renderUnit]⟩
    rcases joinAll_split hseg with ⟨pre, post, hsplit⟩
    refine ⟨"# Combined Code Export\n" ++ pre, post, ?_⟩
    show joinAll ("# Combined Code Export\n" :: (collectHits incl excl (some t)).flatMap renderUnit)
      = "# Combined Code Export\n" ++ pre ++ readFileText h.content ++ post
    rw [joinAll, hsplit]
    simp only [String.append_assoc]

/-- The tree for the C5 witness: one file whose single byte `0xFF` is
invalid UTF-8. -/
def c5Tree : Entry := .dir "r" [.file "a.py" [0xFF]]

/-- Witness for C5 at a concrete input. -/
theorem c5_encoding_fallback_witness :
    ((⟨["a.py"], [0xFF]⟩ : Hit) ∈ iterFiles [".py"] [] c5Tree) ∧
    utf8Decode [0xFF] = none ∧
    (readFileText [0xFF] = String.mk (normNewlines (latin1Decode [0xFF])) ∧
     ∃ pre post, collect_code [".py"] [] c5Tree = pre ++ readFileText [0xFF] ++ post) :=
  ⟨by decide, by decide,
   c5_encoding_fallback [".py"] [] c5Tree ⟨["a.py"], [0xFF]⟩ (by decide) (by decide)⟩

/-- The tree for the C7 counterexample: one file whose bytes decode to
`"x\r\ny"`. -/
def c7Tree : Entry := .dir "r" [.file "a.py" [120, 13, 10, 121]]

/-- C7 is false on the code in two byte-visible respects, both exhibited on
`c7Tree`: (a) each repeating unit starts with two newline characters, not a
single blank line, so a second empty line appears after the newline-ending
header; (b) the content is not verbatim: `Path.read_text` performs
universal-newline translation, so the file's `"x\r\ny"` appears as
`"x\ny"`. -/
theorem c7_counterexample :
    collect_code [".py"] [] c7Tree =
      "# Combined Code Export\n\n\n# File: a.py\nx\ny" ∧
    specCombinedDocument [".py"] [] c7Tree =
      "# Combined Code Export\n\n# File: a.py\nx\r\ny" ∧
    collect_code [".py"] [] c7Tree ≠ specCombinedDocument [".py"] [] c7Tree := by
  have hhits : iterFiles [".py"] [] c7Tree = [⟨["a.py"], [120, 13, 10, 121]⟩] := by decide
  have hcoll : collectHits [".py"] [] (some c7Tree) = [⟨["a.py"], [120, 13, 10, 121]⟩] := by
    rw [collectHits, scan, hhits, List.mergeSort_singleton]
  refine ⟨?_, ?_, ?_⟩
  · rw [collect_code, collectFrom, hcoll]
    decide
  · rw [specCombinedDocument, hcoll]
    decide
  · rw [collect_code, collectFrom, specCombinedDocument, hcoll]
    decide

/-- C7 (amended): the combined document is the fixed header line followed,
for each included file in sorted order, by a repeating unit of two newline
characters (ending the previous line if unterminated and leaving one blank
line), then the file-marker line with the path relative to root, then the
file's decoded content — verbatim except for universal-newline translation
(`"\r\n"` and `"\r"` become `"\n"`). -/
theorem c7_amended_format (incl excl : List String) (t : Entry) :
    collect_code incl excl t =
      "# Combined Code Export\n" ++
        joinAll ((collectHits incl excl (some t)).map fun h =>
          "\n\n# File: " ++ pathString h.path ++ "\n" ++ readFileText h.content) ∧
    ((collectHits incl excl (some t)).map Hit.path).Pairwise
      (fun p q => partsLe p q = true) := by
  constructor
  · exact collectFrom_units incl excl (some t)
  · have hs := List.sorted_mergeSort (fun a b c => hitLe_trans a b c)
      (fun a b => hitLe_total a b) (scan incl excl (some t))
    exact List.pairwise_map.mpr hs

/-- C8: determinism of the collection step.  Two scans of the same fixed
directory tree may enumerate the files in different orders (os.walk order is
filesystem-dependent); whenever the two traversals yield the same multiset
of (path, content) pairs with pairwise-distinct paths, the combined
documents are byte-identical. -/
theorem c8_determinism (incl excl : List String) (t1 t2 : Entry)
    (hperm : List.Perm (iterFiles incl excl t1) (iterFiles incl excl t2))
    (hnd : ((iterFiles incl excl t1).map Hit.path).Nodup) :
    collect_code incl excl t1 = collect_code incl excl t2 := by
  unfold collect_code collectFrom collectHits scan
  rw [mergeSort_perm_invariant hperm hnd]

/-- Trees for the C8 witness: the same two files listed in opposite orders. -/
def c8TreeA : Entry := .dir "r" [.file "b.py" [121], .file "a.py" [120]]

/-- Second listing order of the same directory content. -/
def c8TreeB : Entry := .dir "r" [.file "a.py" [120], .file "b.py" [121]]

/-- Witness for C8 at a concrete input. -/
theorem c8_determinism_witness :
    List.Perm (iterFiles [".py"] [] c8TreeA) (iterFiles [".py"] [] c8TreeB) ∧
    ((iterFiles [".py"] [] c8TreeA).map Hit.path).Nodup ∧
    collect_code [".py"] [] c8TreeA = collect_code [".py"] [] c8TreeB :=
  ⟨by decide, by decide,
   c8_determinism [".py"] [] c8TreeA c8TreeB (by decide) (by decide)⟩

end PCT
